import Mathlib

/-!
Verification of the inbim_ifc viewer core against its specification.

The development shallowly embeds the JavaScript data model and the pure
transformation functions of the repository:

- `src/components/PropertyPanel.jsx`: `extractScalar`, `extractMaterialName`,
  `extractPsets` and the panel empty-state branch;
- `src/utils/ifcTypes.js`: `getIfcTypeName`, `SPATIAL_TYPES`, `getTypeLabel`,
  `getTypeIcon`;
- `src/components/IfcViewer.jsx`: `flattenWrappers`, `groupElementTypes`,
  `enrichNode` and the selection/highlight flow (`handleHighlight`) together
  with the `SelectionContext` provider.

JavaScript values are modelled by the inductive type `JsValue`; `null` and
`undefined` are merged into one constructor `vnull` because every code path in
the sources treats them identically (checks are `== null`, `=== null ||
=== undefined`, `??` and truthiness). Property access on `null`, which would
throw in JavaScript, is never exercised by the modelled code paths and is
modelled as yielding `vnull`.
-/

/-- Model of a JavaScript value as manipulated by the property pipeline. -/
inductive JsValue where
  | vnull : JsValue
  | vbool : Bool → JsValue
  | vnum  : Int → JsValue
  | vstr  : String → JsValue
  | vobj  : List (String × JsValue) → JsValue
  | varr  : List JsValue → JsValue
deriving Repr

namespace JsValue

/-- Test for `v === null || v === undefined` (both merged into `vnull`). -/
def isNull : JsValue → Bool
  | vnull => true
  | _ => false

/-- JavaScript truthiness of a value. -/
def truthy : JsValue → Bool
  | vnull => false
  | vbool b => b
  | vnum n => n != 0
  | vstr s => s ≠ ""
  | vobj _ => true
  | varr _ => true

/-- Lookup of a field in an object literal (first binding wins; the objects
built by the modelled code never repeat a key). -/
def lookupField : List (String × JsValue) → String → Option JsValue
  | [], _ => none
  | (k, v) :: rest, key => if k = key then some v else lookupField rest key

/-- Property access `v.k`. A missing field and access on a non-object both
give `undefined`, modelled as `vnull`. -/
def getField (v : JsValue) (k : String) : JsValue :=
  match v with
  | vobj fields => (lookupField fields k).getD vnull
  | _ => vnull

/-- Test for the JavaScript expression `k in v` as used on plain objects. -/
def hasField (v : JsValue) (k : String) : Bool :=
  match v with
  | vobj fields => (lookupField fields k).isSome
  | _ => false

/-- Test for `typeof v === "object"` on a non-null value: objects and arrays. -/
def jsIsObject : JsValue → Bool
  | vobj _ => true
  | varr _ => true
  | _ => false

/-- JavaScript `String(v)` coercion. Arrays stringify as their elements joined
by commas with null elements blank; plain objects stringify as
`[object Object]`. -/
def jsString : JsValue → String
  | vnull => "null"
  | vbool b => if b then "true" else "false"
  | vnum n => toString n
  | vstr s => s
  | vobj _ => "[object Object]"
  | varr l => String.intercalate ","
      (l.attach.map fun x => if isNull x.1 then "" else jsString x.1)
decreasing_by
  have h := List.sizeOf_lt_of_mem x.2
  simp only [varr.sizeOf_spec]
  omega

end JsValue

open JsValue

@[simp] theorem truthy_vnull : truthy .vnull = false := rfl

@[simp] theorem truthy_vobj (fs : List (String × JsValue)) : truthy (.vobj fs) = true := rfl

@[simp] theorem truthy_varr (l : List JsValue) : truthy (.varr l) = true := rfl

@[simp] theorem truthy_vstr (s : String) : truthy (.vstr s) = decide (s ≠ "") := rfl

/-- Embedding of `extractScalar` from `src/components/PropertyPanel.jsx`:
null or undefined give null; an object exposing a `value` field stringifies
that inner field (null inner field gives null); any other object or array
gives null; any other value is stringified directly. -/
def extractScalar (v : JsValue) : Option String :=
  match v with
  | .vnull => none
  | .vobj fields =>
      match lookupField fields "value" with
      | some inner => if isNull inner then none else some (jsString inner)
      | none => none
  | .varr _ => none
  | x => some (jsString x)

@[simp] theorem extractScalar_vstr (s : String) : extractScalar (.vstr s) = some s := by
  simp [extractScalar, jsString]

/-- The claim of C6 for the wrapper-of-wrapper case, stated as the spec words
it: an object whose inner `value` field is itself a wrapper object extracts to
null. The code instead stringifies the inner object. -/
def specInnerWrapperGivesNull : Prop :=
  extractScalar (.vobj [("value", .vobj [("value", .vstr "x")])]) = none

/-- C6 counterexample: an object whose `value` field is itself a wrapper
object does not extract to null; `extractScalar` stringifies the inner object
to the JavaScript object coercion string. -/
theorem extractScalar_inner_wrapper_not_null :
    extractScalar (.vobj [("value", .vobj [("value", .vstr "x")])])
      = some "[object Object]" ∧ ¬ specInnerWrapperGivesNull := by
  constructor
  · simp [extractScalar, lookupField, jsString, isNull]
  · intro h
    simp [specInnerWrapperGivesNull, extractScalar, lookupField, jsString, isNull] at h

/-- C6 amended: `extractScalar` never throws (it is a total function) and
follows the claimed rules in order, except that an inner `value` field that is
itself an object or array is stringified via the JavaScript string coercion
(giving `[object Object]` for an object) instead of extracting to null:
null gives null; an object with an inner `value` field stringifies the inner
field unless that field is null; any other object or array gives null; plain
scalars round-trip (strings unchanged, numbers and booleans via their
canonical string forms). -/
theorem extractScalar_rules (v : JsValue) :
    (v = .vnull → extractScalar v = none) ∧
    (∀ fields, v = .vobj fields → lookupField fields "value" = none →
      extractScalar v = none) ∧
    (∀ l, v = .varr l → extractScalar v = none) ∧
    (∀ fields inner, v = .vobj fields → lookupField fields "value" = some inner →
      extractScalar v = if isNull inner then none else some (jsString inner)) ∧
    (∀ s, v = .vstr s → extractScalar v = some s) ∧
    (∀ n, v = .vnum n → extractScalar v = some (toString n)) ∧
    (∀ b, v = .vbool b → extractScalar v = some (if b then "true" else "false")) := by
  refine ⟨?_, ?_, ?_, ?_, ?_, ?_, ?_⟩
  · rintro rfl; rfl
  · rintro fields rfl h; simp [extractScalar, h]
  · rintro l rfl; rfl
  · rintro fields inner rfl h; simp [extractScalar, h]
  · rintro s rfl; simp [extractScalar, jsString]
  · rintro n rfl; simp [extractScalar, jsString]
  · rintro b rfl; cases b <;> simp [extractScalar, jsString]

/-- Witness for the amended C6 rules: a plain string round-trips unchanged. -/
theorem extractScalar_rules_witness :
    extractScalar (.vstr "abc") = some "abc" :=
  (extractScalar_rules (.vstr "abc")).2.2.2.2.1 "abc" rfl

/-!
String helpers. JavaScript string methods operate on the sequence of code
units; they are modelled on the character list underlying a Lean string so
that every operation computes by structural recursion (the built-in
`String.toUpper`, `String.drop` and `String.startsWith` are defined by
well-founded position recursion and do not reduce in the kernel).
-/

/-- Model of `s.slice(n)` / dropping the first `n` characters. -/
def strDrop (s : String) (n : Nat) : String := ⟨s.data.drop n⟩

/-- Model of taking the first `n` characters. -/
def strTake (s : String) (n : Nat) : String := ⟨s.data.take n⟩

/-- Model of `s.toUpperCase()`. -/
def strToUpper (s : String) : String := ⟨s.data.map Char.toUpper⟩

/-- Model of `s.toLowerCase()`. -/
def strToLower (s : String) : String := ⟨s.data.map Char.toLower⟩

/-- Model of `s.startsWith(p)`. -/
def strStartsWith (s p : String) : Bool := s.data.take p.data.length = p.data

/-- Appending to the right of a non-empty string is non-empty. -/
theorem append_left_ne_empty {s : String} (t : String) (hs : s ≠ "") : s ++ t ≠ "" := by
  intro h
  apply hs
  apply String.ext
  have hd : s.data ++ t.data = [] := by
    have := congrArg String.data h
    simpa [String.data_append] using this
  simpa using (List.append_eq_nil.mp hd).1

/-!
Embedding of `src/utils/ifcTypes.js`. The reverse type-code map built from
the web-ifc exports (`getTypeCodeMap`) is external configuration data; it is
modelled as an explicit list of pairs of a numeric code and its raw uppercase
schema name, passed to `getIfcTypeName` as a parameter. A JavaScript object
keyed by numbers stores the keys as decimal strings, and `map[typeCode]`
coerces the lookup key to a string, so the lookup compares the decimal string
of each code against the key.
-/

/-- Model of a `typeCode` value given to `getIfcTypeName`: a numeric web-ifc
code or a string (the code performs the same object lookup with either). -/
inductive TypeCode where
  | num (n : Int)
  | str (s : String)
deriving DecidableEq, Repr

/-- String form of a typeCode when used as a JavaScript object property key. -/
def typeCodeKey : TypeCode → String
  | .num n => toString n
  | .str s => s

/-- Lookup in the reverse type-code map `{ code: rawName }` with a string key,
as the object access `map[typeCode]` performs. -/
def codeMapFind : List (Int × String) → String → Option String
  | [], _ => none
  | (c, name) :: rest, key =>
      if toString c = key then some name else codeMapFind rest key

/-- Embedding of `getIfcTypeName` from `src/utils/ifcTypes.js`: null gives
the generic name; otherwise the reverse map is consulted with the typeCode as
property key; a miss (or empty raw name, which is falsy) synthesizes a
placeholder embedding the code; a hit is converted from the raw uppercase
schema name to mixed case. -/
def getIfcTypeName (codeMap : List (Int × String)) (typeCode : Option TypeCode) : String :=
  match typeCode with
  | none => "IfcElement"
  | some tc =>
      match codeMapFind codeMap (typeCodeKey tc) with
      | none => "IfcType_" ++ typeCodeKey tc
      | some raw =>
          if raw = "" then "IfcType_" ++ typeCodeKey tc
          else "Ifc" ++ strToUpper (strTake (strDrop raw 3) 1) ++ strToLower (strDrop raw 4)

/-- Embedding of `SPATIAL_TYPES` from `src/utils/ifcTypes.js`. -/
def SPATIAL_TYPES : List String :=
  ["IfcProject", "IfcSite", "IfcBuilding", "IfcBuildingStorey", "IfcSpace", "IfcZone"]

/-- Lookup in a literal string-keyed table. -/
def tableFind : List (String × String) → String → Option String
  | [], _ => none
  | (k, v) :: rest, key => if k = key then some v else tableFind rest key

/-- Label table of `getTypeLabel` in `src/utils/ifcTypes.js`. -/
def typeLabelTable : List (String × String) :=
  [("IfcProject", "Project"), ("IfcSite", "Site"), ("IfcBuilding", "Building"),
   ("IfcBuildingStorey", "Storey"), ("IfcSpace", "Space"), ("IfcZone", "Zone"),
   ("IfcWall", "Wall"), ("IfcWallStandardCase", "Wall"), ("IfcSlab", "Slab"),
   ("IfcBeam", "Beam"), ("IfcColumn", "Column"), ("IfcDoor", "Door"),
   ("IfcWindow", "Window"), ("IfcStair", "Stair"), ("IfcStairFlight", "Stair Flight"),
   ("IfcRoof", "Roof"), ("IfcRailing", "Railing"), ("IfcPlate", "Plate"),
   ("IfcMember", "Member"), ("IfcFooting", "Footing"), ("IfcPile", "Pile"),
   ("IfcCurtainWall", "Curtain Wall"), ("IfcBuildingElementProxy", "Element"),
   ("IfcFurnishingElement", "Furnishing"), ("IfcOpeningElement", "Opening"),
   ("IfcDistributionElement", "Distribution"), ("IfcFlowTerminal", "Terminal"),
   ("IfcFlowSegment", "Flow Segment"), ("IfcFlowFitting", "Flow Fitting"),
   ("IfcFlowController", "Flow Ctrl")]

/-- Embedding of `getTypeLabel`: table lookup with fallback stripping a
leading `Ifc` from the type name. -/
def getTypeLabel (typeName : String) : String :=
  match tableFind typeLabelTable typeName with
  | some l => l
  | none => if strStartsWith typeName "Ifc" then strDrop typeName 3 else typeName

/-- Icon table of `getTypeIcon` in `src/utils/ifcTypes.js`. -/
def typeIconTable : List (String × String) :=
  [("IfcProject", "🏗"), ("IfcSite", "🌍"), ("IfcBuilding", "🏢"),
   ("IfcBuildingStorey", "🏬"), ("IfcSpace", "📐"), ("IfcZone", "🔲"),
   ("IfcWall", "🧱"), ("IfcWallStandardCase", "🧱"), ("IfcSlab", "▬"),
   ("IfcBeam", "━"), ("IfcColumn", "║"), ("IfcDoor", "🚪"),
   ("IfcWindow", "🪟"), ("IfcStair", "🪜"), ("IfcStairFlight", "🪜"),
   ("IfcRoof", "⌂"), ("IfcRailing", "╫"), ("IfcCurtainWall", "⬛"),
   ("IfcFurnishingElement", "🪑"), ("IfcOpeningElement", "⬜"),
   ("IfcFooting", "⚓"), ("IfcPile", "↓"), ("IfcBuildingElementProxy", "◈")]

/-- Embedding of `getTypeIcon`: table lookup with a generic glyph fallback. -/
def getTypeIcon (typeName : String) : String :=
  match tableFind typeIconTable typeName with
  | some i => i
  | none => "◈"

/-- Spatial-container classification: membership in `SPATIAL_TYPES`. -/
def isSpatialContainer (typeName : String) : Bool :=
  SPATIAL_TYPES.contains typeName

/-- Every value produced by a lookup in a literal table is one of the table
values. -/
theorem tableFind_mem_values {t : List (String × String)} {key v : String}
    (h : tableFind t key = some v) : v ∈ t.map Prod.snd := by
  induction t with
  | nil => simp [tableFind] at h
  | cons hd tl ih =>
      obtain ⟨k, w⟩ := hd
      by_cases hk : k = key
      · simp [tableFind, hk] at h
        simp [h]
      · simp [tableFind, hk] at h
        simpa using Or.inr (ih h)

/-- Icon lookup never yields an empty string. -/
theorem getTypeIcon_ne_empty (typeName : String) : getTypeIcon typeName ≠ "" := by
  unfold getTypeIcon
  cases h : tableFind typeIconTable typeName with
  | none => simp
  | some i =>
      have hv := tableFind_mem_values h
      simp only []
      revert hv
      unfold typeIconTable
      intro hv
      fin_cases hv <;> simp

/-- Every name resolved by `getIfcTypeName` carries the `Ifc` lead-in. -/
theorem getIfcTypeName_eq_ifc_append (codeMap : List (Int × String)) (tc : Option TypeCode) :
    ∃ rest, getIfcTypeName codeMap tc = "Ifc" ++ rest := by
  have hT : ("IfcType_" : String) = "Ifc" ++ "Type_" := by decide
  cases tc with
  | none =>
      refine ⟨"Element", ?_⟩
      simp only [getIfcTypeName]
      decide
  | some c =>
      cases h : codeMapFind codeMap (typeCodeKey c) with
      | none =>
          refine ⟨"Type_" ++ typeCodeKey c, ?_⟩
          simp only [getIfcTypeName, h]
          rw [hT, String.append_assoc]
      | some raw =>
          by_cases hr : raw = ""
          · refine ⟨"Type_" ++ typeCodeKey c, ?_⟩
            simp only [getIfcTypeName, h, hr, if_pos]
            rw [hT, String.append_assoc]
          · refine ⟨strToUpper (strTake (strDrop raw 3) 1) ++ strToLower (strDrop raw 4), ?_⟩
            simp only [getIfcTypeName, h, if_neg hr]
            rw [String.append_assoc]

/-- Claim C7: `getIfcTypeName` is total and returns a non-empty string for
every typeCode and every reverse map; an absent code gives the generic
unspecified-element name; a known numeric code is converted to the canonical
mixed-case form of its raw schema name; an unknown code synthesizes a
placeholder embedding the code. Feeding the resulting name to
`isSpatialContainer`, `getTypeLabel` and `getTypeIcon` always produces a
result (all three are total functions of the name; the icon is moreover never
empty). -/
theorem getIfcTypeName_total_nonempty (codeMap : List (Int × String)) (tc : Option TypeCode) :
    getIfcTypeName codeMap tc ≠ "" ∧
    (tc = none → getIfcTypeName codeMap tc = "IfcElement") ∧
    (∀ c raw, tc = some c → codeMapFind codeMap (typeCodeKey c) = some raw → raw ≠ "" →
      getIfcTypeName codeMap tc =
        "Ifc" ++ strToUpper (strTake (strDrop raw 3) 1) ++ strToLower (strDrop raw 4)) ∧
    (∀ c, tc = some c → codeMapFind codeMap (typeCodeKey c) = none →
      getIfcTypeName codeMap tc = "IfcType_" ++ typeCodeKey c) ∧
    (isSpatialContainer (getIfcTypeName codeMap tc) = true ∨
      isSpatialContainer (getIfcTypeName codeMap tc) = false) ∧
    getTypeIcon (getIfcTypeName codeMap tc) ≠ "" := by
  refine ⟨?_, ?_, ?_, ?_, ?_, getTypeIcon_ne_empty _⟩
  · obtain ⟨rest, hrest⟩ := getIfcTypeName_eq_ifc_append codeMap tc
    rw [hrest]
    exact append_left_ne_empty rest (by decide)
  · rintro rfl; rfl
  · rintro c raw rfl h hr
    simp [getIfcTypeName, h, hr]
  · rintro c rfl h
    simp [getIfcTypeName, h]
  · exact Or.symm (Bool.dichotomy _)

/-- Witness for C7 at a concrete map and codes: the known numeric code is
converted to mixed case, the unknown one synthesizes a placeholder, and the
absent code falls back to the generic name. -/
theorem getIfcTypeName_total_nonempty_witness :
    getIfcTypeName [(103090709, "IFCPROJECT")] (some (TypeCode.num 103090709)) = "IfcProject" ∧
    getIfcTypeName [(103090709, "IFCPROJECT")] (some (TypeCode.num 42)) = "IfcType_42" ∧
    getIfcTypeName [(103090709, "IFCPROJECT")] none = "IfcElement" := by
  refine ⟨?_, ?_, ?_⟩
  · have h := (getIfcTypeName_total_nonempty [(103090709, "IFCPROJECT")]
      (some (TypeCode.num 103090709))).2.2.1 (TypeCode.num 103090709) "IFCPROJECT" rfl
      (by decide) (by decide)
    rw [h]; decide
  · exact (getIfcTypeName_total_nonempty [(103090709, "IFCPROJECT")]
      (some (TypeCode.num 42))).2.2.2.1 (TypeCode.num 42) rfl (by decide)
  · exact (getIfcTypeName_total_nonempty [(103090709, "IFCPROJECT")] none).2.1 rfl

/-- The mixed-case conversion of a raw schema-style name, as the claim of C8
describes the expected result for a string typeCode: the same conversion the
code applies to reverse-map hits, applied to the string directly. -/
def specDirectCaseConversion (s : String) : String :=
  "Ifc" ++ strToUpper (strTake (strDrop s 3) 1) ++ strToLower (strDrop s 4)

/-- C8 counterexample: a typeCode that is already a raw schema-style name
string is not converted to mixed case. The reverse map is keyed by decimal
strings of the numeric codes, so the lookup with the name string misses and
the function returns the synthesized placeholder instead of the converted
name. -/
theorem getIfcTypeName_string_code_not_converted :
    getIfcTypeName [(103090709, "IFCPROJECT"), (2391406946, "IFCWALL")]
        (some (TypeCode.str "IFCWALL")) = "IfcType_IFCWALL" ∧
    specDirectCaseConversion "IFCWALL" = "IfcWall" ∧
    getIfcTypeName [(103090709, "IFCPROJECT"), (2391406946, "IFCWALL")]
        (some (TypeCode.str "IFCWALL")) ≠ specDirectCaseConversion "IFCWALL" := by
  refine ⟨by decide, by decide, by decide⟩

/-- C8 amended: a string typeCode undergoes exactly the same reverse-map
lookup as a numeric code (the object access coerces the key); when the string
is not a numeric key of the map, the lookup misses and the result is the
synthesized placeholder embedding the string, not a direct case conversion.
A string that happens to equal the decimal form of a mapped code is treated
like that code. -/
theorem getIfcTypeName_string_code (codeMap : List (Int × String)) (s : String)
    (hmiss : codeMapFind codeMap s = none) :
    getIfcTypeName codeMap (some (TypeCode.str s)) = "IfcType_" ++ s := by
  simp [getIfcTypeName, typeCodeKey, hmiss]

/-- Witness for the amended C8 at the concrete map of the counterexample. -/
theorem getIfcTypeName_string_code_witness :
    getIfcTypeName [(103090709, "IFCPROJECT"), (2391406946, "IFCWALL")]
        (some (TypeCode.str "IFCWALL")) = "IfcType_" ++ "IFCWALL" :=
  getIfcTypeName_string_code [(103090709, "IFCPROJECT"), (2391406946, "IFCWALL")]
    "IFCWALL" (by decide)

/-!
Size lemmas supporting the recursion of the relation walker: a field of an
object is structurally smaller than the object, and a member of the
normalized list of a relation value is no larger than the value.
-/

/-- Normalization of a relation value to a list, as the code writes
`Array.isArray(x) ? x : [x]`. -/
def toList (v : JsValue) : List JsValue :=
  match v with
  | .varr l => l
  | x => [x]

theorem sizeOf_lookupField {fields : List (String × JsValue)} {k : String} {v : JsValue}
    (h : lookupField fields k = some v) : sizeOf v < 1 + sizeOf fields := by
  induction fields with
  | nil => simp [lookupField] at h
  | cons hd tl ih =>
      obtain ⟨k0, v0⟩ := hd
      by_cases hk : k0 = k
      · simp [lookupField, hk] at h
        subst h
        simp
        omega
      · simp [lookupField, hk] at h
        have := ih h
        simp
        omega

theorem sizeOf_getField_lt (fields : List (String × JsValue)) (k : String) :
    sizeOf (getField (JsValue.vobj fields) k) < sizeOf (JsValue.vobj fields) := by
  simp only [getField]
  cases h : lookupField fields k with
  | none =>
      have : sizeOf fields ≥ 1 := by
        cases fields <;> simp <;> omega
      simp
      omega
  | some v =>
      have := sizeOf_lookupField h
      simp
      omega

theorem truthy_getField_sizeOf {v : JsValue} (k : String)
    (h : truthy (getField v k) = true) : sizeOf (getField v k) < sizeOf v := by
  cases v with
  | vobj fields => exact sizeOf_getField_lt fields k
  | _ => simp [getField, truthy] at h

theorem sizeOf_mem_toList {x v : JsValue} (h : x ∈ toList v) : sizeOf x ≤ sizeOf v := by
  cases v with
  | varr l =>
      have := List.sizeOf_lt_of_mem (by simpa [toList] using h)
      simp
      omega
  | _ => simp_all [toList]

theorem sizeOf_getField_lt_alt (fields : List (String × JsValue)) (k : String) :
    sizeOf (getField (JsValue.vobj fields) k) < 1 + sizeOf fields := by
  have := sizeOf_getField_lt fields k
  simpa using this

theorem sizeOf_toList_getField_lt {x v : JsValue} {k : String}
    (hmem : x ∈ toList (getField v k)) (ht : truthy (getField v k) = true) :
    sizeOf x < sizeOf v :=
  lt_of_le_of_lt (sizeOf_mem_toList hmem) (truthy_getField_sizeOf k ht)

/-- First-occurrence deduplication of a list of strings, the order a
JavaScript `Set` built from the list iterates in. -/
def firstDedup : List String → List String
  | [] => []
  | x :: xs => x :: firstDedup (xs.filter (fun y => y ≠ x))
termination_by l => l.length
decreasing_by
  simp only [List.length_cons]
  exact Nat.lt_succ_of_le (List.length_filter_le _ xs)

/-- Truthiness of an extracted scalar, as JavaScript sees the value returned
by `extractScalar` (null and the empty string are falsy). -/
def strOptTruthy : Option String → Bool
  | some s => s ≠ ""
  | none => false

/-- Embedding of `extractMaterialName` from `src/components/PropertyPanel.jsx`.
Falsy input gives null. An array maps the extraction over its members,
drops falsy and IFC-prefixed results, and joins the distinct survivors.
An object first tries its direct `Name`, discarding generic names (falsy,
IFC-prefixed, or the literal word MATERIAL); then drills through the known
container shapes in source order (`ForLayerSet`, `MaterialLayers`,
`Material` with fall-through when the nested extraction is falsy,
`Materials`, `ForProfileSet`, `MaterialProfiles`); as a last resort a truthy
generic direct name is returned. Anything else gives null. -/
def extractMaterialName (mat : JsValue) : Option String :=
  if truthy mat = false then none
  else
    match mat with
    | .varr elems =>
        let names := ((elems.attach.map fun x => extractMaterialName x.1).reduceOption).filter
          (fun n => n ≠ "" && !(strStartsWith (strToUpper n) "IFC"))
        if names.isEmpty then none
        else some (String.intercalate ", " (firstDedup names))
    | .vobj fields =>
        let directName := extractScalar (getField (.vobj fields) "Name")
        let isGeneric :=
          !(strOptTruthy directName) ||
          (match directName with
           | some s => strStartsWith (strToUpper s) "IFC" || strToUpper s = "MATERIAL"
           | none => false)
        if strOptTruthy directName && !isGeneric then directName
        else if truthy (getField (.vobj fields) "ForLayerSet") then
          extractMaterialName (getField (.vobj fields) "ForLayerSet")
        else if truthy (getField (.vobj fields) "MaterialLayers") then
          extractMaterialName (getField (.vobj fields) "MaterialLayers")
        else
          let afterMaterial :=
            if truthy (getField (.vobj fields) "Materials") then
              extractMaterialName (getField (.vobj fields) "Materials")
            else if truthy (getField (.vobj fields) "ForProfileSet") then
              extractMaterialName (getField (.vobj fields) "ForProfileSet")
            else if truthy (getField (.vobj fields) "MaterialProfiles") then
              extractMaterialName (getField (.vobj fields) "MaterialProfiles")
            else if strOptTruthy directName then directName
            else none
          if truthy (getField (.vobj fields) "Material") then
            match extractMaterialName (getField (.vobj fields) "Material") with
            | some n => if n = "" then afterMaterial else some n
            | none => afterMaterial
          else afterMaterial
    | _ => none
termination_by sizeOf mat
decreasing_by
  all_goals simp_wf
  all_goals first
    | apply sizeOf_getField_lt_alt
    | (exact lt_of_lt_of_le (List.sizeOf_lt_of_mem x.2) (by omega))

/-- Row of a property section: `{ key, label, value }`. -/
structure PropRow where
  key : String
  label : String
  value : String
deriving DecidableEq, Repr

/-- Section of the property sheet: `{ title, rows }`. -/
structure PropSection where
  title : String
  rows : List PropRow
deriving DecidableEq, Repr

/-- Loop body of the `HasProperties` walk in `extractPsets`: a truthy object
contributes one row named by its own `Name`, with the value drawn from the
`NominalValue` wrapper when that is a truthy object exposing a `value` field,
else from its direct `Value` field; a row is kept only when the name is
truthy and a value extracted. -/
def psetRow (p : JsValue) : Option PropRow :=
  if truthy p && jsIsObject p then
    let name := extractScalar (getField p "Name")
    let nominal := getField p "NominalValue"
    let val :=
      if truthy nominal && hasField nominal "value" then extractScalar nominal
      else extractScalar (getField p "Value")
    match name, val with
    | some n, some v => if n = "" then none else some ⟨n, n, v⟩
    | _, _ => none
  else none

/-- Simplified model of `!isNaN(Number(cat))` on an upper-cased category
string: the empty string parses to zero and digit strings parse; word
categories do not. -/
def jsStringIsNumericLike (s : String) : Bool := s.data.all Char.isDigit

/-- Model of `s.includes(sub)` on the character lists. -/
def strContainsSub (s sub : String) : Bool :=
  (List.range (s.data.length + 1)).any
    fun i => (s.data.drop i).take sub.data.length = sub.data

/-- Material section with the single row produced by `extractPsets`. -/
def mkMaterialSection (n : String) : PropSection :=
  ⟨"Material", [⟨"material", "Material", n⟩]⟩

/-- Embedding of `extractPsets` from `src/components/PropertyPanel.jsx`.
A falsy or non-object input contributes nothing. Otherwise the five steps
run in source order: a truthy `RelatingMaterial` resolves a material name
into a `Material` section; a truthy `HasProperties` list builds one titled
section from the extractable rows; a truthy `RelatingPropertyDefinition`
splices in the sections of the referenced definitions; a truthy
`RelatingType` produces a `Type` section per named type object and walks the
type objects `HasPropertySets` and `HasAssociations`; when nothing was
produced, a category that mentions MATERIAL or is numeric-or-absent, or the
presence of material-container fields, triggers a last-resort material
extraction on the record itself. -/
def extractPsets (rel : JsValue) : List PropSection :=
  if truthy rel && jsIsObject rel then
    let s1 :=
      if truthy (getField rel "RelatingMaterial") then
        match extractMaterialName (getField rel "RelatingMaterial") with
        | some n => if n = "" then [] else [mkMaterialSection n]
        | none => []
      else []
    let s2 :=
      if truthy (getField rel "HasProperties") then
        let rows := (toList (getField rel "HasProperties")).filterMap psetRow
        if rows.isEmpty then []
        else [⟨(extractScalar (getField rel "Name")).getD "Property Set", rows⟩]
      else []
    let s3 :=
      if h3 : truthy (getField rel "RelatingPropertyDefinition") then
        ((toList (getField rel "RelatingPropertyDefinition")).attach.map
          fun x => extractPsets x.1).flatten
      else []
    let s4 :=
      if h4 : truthy (getField rel "RelatingType") then
        ((toList (getField rel "RelatingType")).attach.map fun t =>
          (match extractScalar (getField t.1 "Name") with
           | some n => if n = "" then [] else
               [⟨"Type", [⟨"typeName", "Type Name", n⟩]⟩]
           | none => []) ++
          (if h5 : truthy (getField t.1 "HasPropertySets") then
            ((toList (getField t.1 "HasPropertySets")).attach.map
              fun ps => extractPsets ps.1).flatten
           else []) ++
          (if h6 : truthy (getField t.1 "HasAssociations") then
            ((toList (getField t.1 "HasAssociations")).attach.map
              fun a => extractPsets a.1).flatten
           else [])).flatten
      else []
    let res := s1 ++ s2 ++ s3 ++ s4
    if res.isEmpty then
      let cat := strToUpper ((extractScalar (getField rel "_category")).getD "")
      let isMatCat := strContainsSub cat "MATERIAL" || jsStringIsNumericLike cat
      if isMatCat || truthy (getField rel "MaterialLayers") ||
          truthy (getField rel "Materials") || truthy (getField rel "MaterialProfiles") then
        match extractMaterialName rel with
        | some n => if n = "" then [] else [mkMaterialSection n]
        | none => []
      else []
    else res
  else []
termination_by sizeOf rel
decreasing_by
  all_goals simp_wf
  · exact sizeOf_toList_getField_lt x.2 h3
  · exact lt_trans (sizeOf_toList_getField_lt ps.2 h5) (sizeOf_toList_getField_lt t.2 h4)
  · exact lt_trans (sizeOf_toList_getField_lt a.2 h6) (sizeOf_toList_getField_lt t.2 h4)

theorem intercalate_single (sep a : String) : String.intercalate sep [a] = a := by
  simp [String.intercalate, String.intercalate.go]

theorem extractMaterialName_named (s : String) (hs : s ≠ "")
    (h2 : strStartsWith (strToUpper s) "IFC" = false)
    (h3 : strToUpper s ≠ "MATERIAL") :
    extractMaterialName (.vobj [("Name", .vstr s)]) = some s := by
  rw [extractMaterialName.eq_def]
  simp [getField, lookupField, extractScalar, jsString, strOptTruthy, hs, h2, h3]


theorem intercalate_pair (sep a b : String) :
    String.intercalate sep [a, b] = a ++ sep ++ b := by
  simp [String.intercalate, String.intercalate.go]

/-- Drilling step `IfcMaterialLayer.Material`: when the nested extraction
succeeds with a truthy name, it is returned. -/
theorem extractMaterialName_layer (m : JsValue) (n : String)
    (hm : truthy m = true) (h : extractMaterialName m = some n) (hn : n ≠ "") :
    extractMaterialName (.vobj [("Material", m)]) = some n := by
  rw [extractMaterialName.eq_def]
  simp [getField, lookupField, extractScalar, strOptTruthy, hm, h, hn]

/-- Drilling step `IfcMaterialLayerSet.MaterialLayers`. -/
theorem extractMaterialName_layerSet (ls : JsValue) (hls : truthy ls = true) :
    extractMaterialName (.vobj [("MaterialLayers", ls)]) = extractMaterialName ls := by
  rw [extractMaterialName.eq_def]
  simp [getField, lookupField, extractScalar, strOptTruthy, hls]

/-- Drilling step `IfcMaterialLayerSetUsage.ForLayerSet`. -/
theorem extractMaterialName_usage (fs : JsValue) (hfs : truthy fs = true) :
    extractMaterialName (.vobj [("ForLayerSet", fs)]) = extractMaterialName fs := by
  rw [extractMaterialName.eq_def]
  simp [getField, lookupField, extractScalar, strOptTruthy, hfs]

/-- Array flattening on a singleton: the one resolved, non-IFC-prefixed name
survives the filter and the join is the name itself. -/
theorem extractMaterialName_singleton_array (x : JsValue) (n : String)
    (h : extractMaterialName x = some n) (hn : n ≠ "")
    (hifc : strStartsWith (strToUpper n) "IFC" = false) :
    extractMaterialName (.varr [x]) = some n := by
  rw [extractMaterialName.eq_def]
  simp [h, hn, hifc, firstDedup, intercalate_single]

/-- Top-level step 1 of `extractPsets`: a record whose only relation field is
a truthy `RelatingMaterial` that resolves to a truthy name yields exactly the
one `Material` section. -/
theorem extractPsets_material (rm : JsValue) (n : String) (hrm : truthy rm = true)
    (h : extractMaterialName rm = some n) (hn : n ≠ "") :
    extractPsets (.vobj [("RelatingMaterial", rm)]) = [mkMaterialSection n] := by
  rw [extractPsets.eq_def]
  simp [getField, lookupField, toList, jsIsObject, hrm, h, hn, mkMaterialSection]

/-- Array flattening deduplicates by display name: three members resolving to
the names `a`, `b`, `a` join to the two distinct names in first-occurrence
order. -/
theorem extractMaterialName_dedup_array (x y z : JsValue) (a b : String)
    (hx : extractMaterialName x = some a) (hy : extractMaterialName y = some b)
    (hz : extractMaterialName z = some a)
    (ha : a ≠ "") (hb : b ≠ "")
    (haifc : strStartsWith (strToUpper a) "IFC" = false)
    (hbifc : strStartsWith (strToUpper b) "IFC" = false)
    (hab : a ≠ b) :
    extractMaterialName (.varr [x, y, z]) = some (a ++ ", " ++ b) := by
  rw [extractMaterialName.eq_def]
  simp [hx, hy, hz, ha, hb, haifc, hbifc, firstDedup, Ne.symm hab, intercalate_pair]

/-- Array flattening collapses repeated identical names to a single one. -/
theorem extractMaterialName_dup_array (x y : JsValue) (a : String)
    (hx : extractMaterialName x = some a) (hy : extractMaterialName y = some a)
    (ha : a ≠ "") (haifc : strStartsWith (strToUpper a) "IFC" = false) :
    extractMaterialName (.varr [x, y]) = some a := by
  rw [extractMaterialName.eq_def]
  simp [hx, hy, ha, haifc, firstDedup, intercalate_single]

/-- Material object carrying a direct name, as built in the C4 scenarios. -/
def namedMaterial (x : String) : JsValue := .vobj [("Name", .vstr x)]

/-- Claim C4: for a material relation nested three levels deep (layer-set
usage referencing a layer-set whose member layer carries a material with a
real, non-generic name), `extractPsets` returns exactly one `Material`
section whose single row holds the resolved material name, not any
intermediate container name; and arrays of materials are flattened with the
resolved names de-duplicated by display name and joined in first-occurrence
order. -/
theorem extractPsets_nested_material (s t : String)
    (hs : s ≠ "") (hsifc : strStartsWith (strToUpper s) "IFC" = false)
    (hsmat : strToUpper s ≠ "MATERIAL")
    (ht : t ≠ "") (htifc : strStartsWith (strToUpper t) "IFC" = false)
    (htmat : strToUpper t ≠ "MATERIAL")
    (hst : s ≠ t) :
    extractPsets (.vobj [("RelatingMaterial", .vobj [("ForLayerSet",
        .vobj [("MaterialLayers", .varr [.vobj [("Material", namedMaterial s)]])])])])
      = [mkMaterialSection s] ∧
    extractMaterialName (.varr [namedMaterial s, namedMaterial t, namedMaterial s])
      = some (s ++ ", " ++ t) ∧
    extractMaterialName (.varr [namedMaterial s, namedMaterial s]) = some s := by
  have hnamed := extractMaterialName_named s hs hsifc hsmat
  have hnamedT := extractMaterialName_named t ht htifc htmat
  refine ⟨?_, ?_, ?_⟩
  · have hlayer := extractMaterialName_layer (namedMaterial s) s (by simp [namedMaterial])
      hnamed hs
    have harr := extractMaterialName_singleton_array (.vobj [("Material", namedMaterial s)])
      s hlayer hs hsifc
    have hls := extractMaterialName_layerSet
      (.varr [.vobj [("Material", namedMaterial s)]]) (by simp)
    rw [harr] at hls
    have husage := extractMaterialName_usage
      (.vobj [("MaterialLayers", .varr [.vobj [("Material", namedMaterial s)]])]) (by simp)
    rw [hls] at husage
    exact extractPsets_material _ s (by simp) husage hs
  · exact extractMaterialName_dedup_array _ _ _ s t hnamed hnamedT hnamed hs ht
      hsifc htifc hst
  · exact extractMaterialName_dup_array _ _ s hnamed hnamed hs hsifc

/-- Witness for C4 at concrete names. -/
theorem extractPsets_nested_material_witness :
    ("Concrete" ≠ "" ∧ "Concrete" ≠ "Steel") ∧
    extractPsets (.vobj [("RelatingMaterial", .vobj [("ForLayerSet",
        .vobj [("MaterialLayers", .varr [.vobj [("Material", namedMaterial "Concrete")]])])])])
      = [mkMaterialSection "Concrete"] ∧
    extractMaterialName
        (.varr [namedMaterial "Concrete", namedMaterial "Steel", namedMaterial "Concrete"])
      = some ("Concrete" ++ ", " ++ "Steel") := by
  have h := extractPsets_nested_material "Concrete" "Steel" (by decide) (by decide)
    (by decide) (by decide) (by decide) (by decide) (by decide)
  exact ⟨⟨by decide, by decide⟩, h.1, h.2.1⟩

/-- Claim C5: a record whose only relation field is a property-set relation
with three properties, two of which yield rows and one of which yields none,
produces exactly one section with exactly those two rows, titled by the
extractable name of the set (with the default title when the name does not
extract); moreover a row value comes from the `NominalValue` wrapper when
that wrapper is present, even when a direct `Value` field also exists, and
from the direct `Value` field otherwise. -/
theorem extractPsets_property_set (nameVal p1 p2 p3 : JsValue) (r1 r2 : PropRow)
    (h1 : psetRow p1 = some r1) (h2 : psetRow p2 = some r2) (h3 : psetRow p3 = none) :
    extractPsets (.vobj [("Name", nameVal), ("HasProperties", .varr [p1, p2, p3])])
      = [⟨(extractScalar nameVal).getD "Property Set", [r1, r2]⟩] ∧
    (∀ nm v w fsn, nm ≠ "" → isNull v = false →
      psetRow (.vobj [("Name", .vstr nm),
          ("NominalValue", .vobj (("value", v) :: fsn)), ("Value", w)])
        = some ⟨nm, nm, jsString v⟩) ∧
    (∀ nm w x, nm ≠ "" → extractScalar w = some x →
      psetRow (.vobj [("Name", .vstr nm), ("Value", w)]) = some ⟨nm, nm, x⟩) := by
  refine ⟨?_, ?_, ?_⟩
  · rw [extractPsets.eq_def]
    simp [getField, lookupField, toList, jsIsObject, h1, h2, h3]
  · intro nm v w fsn hnm hv
    simp [psetRow, getField, lookupField, jsIsObject, hasField, extractScalar,
      jsString, hv, hnm]
  · intro nm w x hnm hw
    simp [psetRow, getField, lookupField, jsIsObject, hasField, isNull,
      hw, hnm]

/-- Witness for C5 at a concrete record: properties A and B yield rows (A via
its nominal-value wrapper, B via its direct value), C yields none, and the
result is the single two-row section. -/
theorem extractPsets_property_set_witness :
    psetRow (.vobj [("Name", .vstr "A"), ("NominalValue", .vobj [("value", .vstr "1")])])
        = some ⟨"A", "A", "1"⟩ ∧
    extractPsets (.vobj [("Name", .vstr "MyPset"), ("HasProperties",
        .varr [.vobj [("Name", .vstr "A"), ("NominalValue", .vobj [("value", .vstr "1")])],
               .vobj [("Name", .vstr "B"), ("Value", .vstr "x")],
               .vobj [("Name", .vstr "C")]])])
      = [⟨(extractScalar (.vstr "MyPset")).getD "Property Set",
          [⟨"A", "A", "1"⟩, ⟨"B", "B", "x"⟩]⟩] := by
  have hA : psetRow (.vobj [("Name", .vstr "A"),
      ("NominalValue", .vobj [("value", .vstr "1")])]) = some ⟨"A", "A", "1"⟩ := by
    simp [psetRow, getField, lookupField, jsIsObject, hasField, extractScalar, jsString,
      isNull]
  have hB : psetRow (.vobj [("Name", .vstr "B"), ("Value", .vstr "x")])
      = some ⟨"B", "B", "x"⟩ := by
    simp [psetRow, getField, lookupField, jsIsObject, hasField, extractScalar, jsString]
  have hC : psetRow (.vobj [("Name", .vstr "C")]) = none := by
    simp [psetRow, getField, lookupField, jsIsObject, hasField, extractScalar, jsString]
  exact ⟨hA, (extractPsets_property_set (.vstr "MyPset") _ _ _ _ _ hA hB hC).1⟩

/-!
Model of the selection flow. `IfcViewer.jsx` registers `handleHighlight` on
the highlighter select event; on a pick the handler starts an asynchronous
`getItemsData` fetch and only when that fetch settles does it call
`onSelect({ expressID, modelID, properties })`. The `SelectionContext`
provider stores whatever `onSelect` delivers, unconditionally
(`setSelectedElement(data)`); there is no selection-generation counter or any
other staleness gate. An execution is therefore modelled as the sequence of
pick and fetch-completion events in the order they occur on the event loop;
a pick leaves the stored selection unchanged and a completion overwrites it. -/

/-- Data `handleHighlight` passes to `onSelect` when a fetch settles. -/
structure SelectionData where
  expressID : Int
  modelID : String
  properties : Option JsValue
deriving Repr

/-- Event-loop events of the selection flow: a pick (fetch started, no state
write) or the completion of the fetch started by the pick of the given
element (state write). -/
inductive SelEvent where
  | pick (expressID : Int)
  | complete (data : SelectionData)

/-- One event against the stored selection of the provider. -/
def applySelEvent (st : Option SelectionData) : SelEvent → Option SelectionData
  | .pick _ => st
  | .complete d => some d

/-- Stored selection after a sequence of events. -/
def runSelection (events : List SelEvent) (init : Option SelectionData) :
    Option SelectionData :=
  events.foldl applySelEvent init

/-- Last completion of an event sequence, if any. -/
def lastComplete : List SelEvent → Option SelectionData
  | [] => none
  | .pick _ :: rest => lastComplete rest
  | .complete d :: rest => some ((lastComplete rest).getD d)

/-- C1 counterexample: pick element 1 (A), then element 2 (B); the fetch for
B settles first and the fetch for A settles afterwards. The stored selection
ends as the data of A, so the visible panel reflects the stale selection A,
not the current selection B: no resolution is ever discarded. -/
theorem stale_resolution_overwrites_current :
    runSelection
      [.pick 1, .pick 2,
       .complete ⟨2, "m", some (.vstr "propsB")⟩,
       .complete ⟨1, "m", some (.vstr "propsA")⟩] none
      = some ⟨1, "m", some (.vstr "propsA")⟩ ∧
    (runSelection
      [.pick 1, .pick 2,
       .complete ⟨2, "m", some (.vstr "propsB")⟩,
       .complete ⟨1, "m", some (.vstr "propsA")⟩] none).map SelectionData.expressID
      ≠ some 2 := by
  constructor
  · rfl
  · intro h
    simp [runSelection, applySelEvent] at h

/-- C1 amended: the stored selection after any event sequence is the data of
whichever fetch completed last (or the initial state when no fetch
completed); completion order alone decides, selection order does not, and a
stale resolution that completes after a newer one overwrites it. -/
theorem runSelection_last_completion_wins (events : List SelEvent)
    (init : Option SelectionData) :
    runSelection events init =
      match lastComplete events with
      | some d => some d
      | none => init := by
  induction events generalizing init with
  | nil => rfl
  | cons e rest ih =>
      cases e with
      | pick i => simpa [runSelection, applySelEvent, lastComplete] using ih init
      | complete d =>
          simp only [runSelection, List.foldl_cons, applySelEvent, lastComplete]
          rw [show List.foldl applySelEvent (some d) rest = runSelection rest (some d) from rfl]
          rw [ih (some d)]
          cases lastComplete rest <;> simp

/-!
Model of the property fetch inside `handleHighlight` (`IfcViewer.jsx`,
selection effect): the expanded fetch `getItemsData([expressID], { ...
relations ... })` is tried first; if it throws, exactly one narrower retry
`getItemsData([expressID])` without relation-expansion options runs; if that
throws too, the properties stay null. In every case `onSelect` is called with
the element identifier and whatever properties resulted. The outcome of each
external call is an oracle value. -/

/-- Outcome of one `getItemsData` call: the resolved items array or a throw. -/
inductive FetchOutcome where
  | ok (items : List JsValue)
  | fail

/-- First element access `itemsData?.[0] ?? null`. -/
def jsFirstItem : List JsValue → Option JsValue
  | [] => none
  | v :: _ => if isNull v then none else some v

/-- Attempt log and resulting properties of the fetch sequence. -/
structure FetchResult where
  props : Option JsValue
  triedExpanded : Bool
  triedBasic : Bool
deriving Repr

/-- Fetch logic of `handleHighlight`: expanded call first, one basic retry
only on failure of the expanded call. -/
def fetchElementProps (expanded basic : FetchOutcome) : FetchResult :=
  match expanded with
  | .ok items => ⟨jsFirstItem items, true, false⟩
  | .fail =>
      match basic with
      | .ok items => ⟨jsFirstItem items, true, true⟩
      | .fail => ⟨none, true, true⟩

/-- Selection data `handleHighlight` hands to `onSelect` after the fetches. -/
def handleHighlightResult (expressID : Int) (modelID : String)
    (expanded basic : FetchOutcome) : SelectionData :=
  ⟨expressID, modelID, (fetchElementProps expanded basic).props⟩

/-- Views the property panel can render for a selected element
(`PropertyPanel.jsx`): the no-property-data empty state or the property
sheet. There is no error banner branch for a failed fetch. -/
inductive PanelView where
  | noData
  | sheet (props : JsValue)
deriving Repr

/-- Render dispatch of `PropertyPanel`: falsy `selectedElement?.properties ??
null` renders the empty state, otherwise the sheet. -/
def renderPanel (sel : SelectionData) : PanelView :=
  match sel.properties with
  | none => .noData
  | some p => if truthy p then .sheet p else .noData

/-- Claim C9: when the expanded fetch fails, exactly one narrower retry
without relation-expansion options runs; when the expanded fetch succeeds no
retry runs; when both calls fail the selection still records the element
identifier with null properties and the panel renders the no-property-data
empty state (there is no error view for this case). -/
theorem fetch_retry_once (e : Int) (m : String) (basic : FetchOutcome) :
    ((fetchElementProps .fail basic).triedExpanded = true ∧
      (fetchElementProps .fail basic).triedBasic = true) ∧
    (∀ items, (fetchElementProps (.ok items) basic).triedBasic = false) ∧
    handleHighlightResult e m .fail .fail = ⟨e, m, none⟩ ∧
    renderPanel (handleHighlightResult e m .fail .fail) = .noData ∧
    (handleHighlightResult e m .fail .fail).expressID = e := by
  refine ⟨⟨?_, ?_⟩, ?_, ?_, ?_, ?_⟩ <;>
    first
      | (cases basic <;> rfl)
      | (intro items; rfl)
      | rfl

/-!
Embedding of the spatial tree helpers in `src/components/IfcViewer.jsx`:
`flattenWrappers` (pass 1), `groupElementTypes` (pass 2) and `enrichNode`
(synthesis between the passes). Raw containment nodes carry `localId`,
`category` and `children`; the name and type maps batch-fetched in
`buildModelTree` are passed in as association lists (JavaScript `Map`s with
integer keys); the reverse type-code map parameterizes the type resolution as
in the `getIfcTypeName` embedding. The `localeCompare` tie-break of the child
sort is modelled as code-point string order; no theorem below depends on the
collation. -/

/-- Raw spatial containment node delivered by `getSpatialStructure`. -/
inductive RawNode where
  | mk (localId : Option Int) (category : Option TypeCode) (children : List RawNode)

def RawNode.localId : RawNode → Option Int
  | .mk l _ _ => l

def RawNode.category : RawNode → Option TypeCode
  | .mk _ c _ => c

def RawNode.children : RawNode → List RawNode
  | .mk _ _ cs => cs

/-- Display tree node produced by the tree builder. -/
inductive DNode where
  | mk (expressID : Option Int) (type : String) (name : String) (children : List DNode)

def DNode.expressID : DNode → Option Int
  | .mk i _ _ _ => i

def DNode.type : DNode → String
  | .mk _ t _ _ => t

def DNode.name : DNode → String
  | .mk _ _ n _ => n

def DNode.children : DNode → List DNode
  | .mk _ _ _ cs => cs

/-- Lookup in an integer-keyed `Map`. -/
def mapGet {α : Type} : List (Int × α) → Int → Option α
  | [], _ => none
  | (k, v) :: rest, key => if k = key then some v else mapGet rest key

/-- Type resolution of pass 1: the per-id type lookup wins over the embedded
category tag, and the generic name stands in when both are absent. -/
def resolveNodeType (cm : List (Int × String)) (tm : List (Int × TypeCode))
    (lid : Option Int) (cat : Option TypeCode) : String :=
  match lid.bind (mapGet tm) with
  | some tc => getIfcTypeName cm (some tc)
  | none =>
      match cat with
      | some c => getIfcTypeName cm (some c)
      | none => "IfcElement"

/-- Name resolution of pass 1: the explicit name lookup, else the type name. -/
def resolveNodeName (nm : List (Int × String)) (lid : Option Int)
    (typeName : String) : String :=
  match lid.bind (mapGet nm) with
  | some n => n
  | none => typeName

/-- Validity of a raw identifier: present and non-zero. -/
def rawHasValidId : Option Int → Bool
  | some n => n ≠ 0
  | none => false

mutual

/-- Embedding of pass 1, `flattenWrappers`: resolve the type and display
name, flatten the children, and either splice the flattened children in
place of the node (wrapper elision, `isDummy`) or keep the node as one
display node carrying them. -/
def flattenWrappers (cm : List (Int × String)) (nm : List (Int × String))
    (tm : List (Int × TypeCode)) : RawNode → List DNode
  | .mk lid cat children =>
      let typeName := resolveNodeType cm tm lid cat
      let name := resolveNodeName nm lid typeName
      let processedChildren := flattenList cm nm tm children
      let hasValidId := rawHasValidId lid
      let isDummy :=
        if decide (typeName = "IfcElement") || strStartsWith typeName "IfcRel" then
          decide (processedChildren.length > 0) || !hasValidId
        else if !hasValidId && !(SPATIAL_TYPES.contains typeName) then true
        else false
      if isDummy then processedChildren
      else [.mk lid typeName name processedChildren]

/-- Pass 1 over a child list, concatenating the flattened results. -/
def flattenList (cm : List (Int × String)) (nm : List (Int × String))
    (tm : List (Int × TypeCode)) : List RawNode → List DNode
  | [] => []
  | c :: rest => flattenWrappers cm nm tm c ++ flattenList cm nm tm rest

end

/-- Sort comparator of pass 2: non-folders (nodes with an identifier) sort
before folders; ties break by display name. -/
def childSortLe (a b : DNode) : Bool :=
  if a.expressID.isNone != b.expressID.isNone then b.expressID.isNone
  else a.name ≤ b.name

mutual

/-- Embedding of pass 2, `groupElementTypes`: recursively group each level,
keep spatial children directly, bundle non-spatial children into one
synthetic folder per distinct type in first-occurrence order, and sort the
new child list with folders last. -/
def groupElementTypes : DNode → DNode
  | .mk i t n children =>
      if children.isEmpty then .mk i t n children
      else
        let grouped := groupList children
        let spatialChildren := grouped.filter (fun c => SPATIAL_TYPES.contains c.type)
        let nonSpatial := grouped.filter (fun c => !(SPATIAL_TYPES.contains c.type))
        let folders := (firstDedup (nonSpatial.map DNode.type)).map
          (fun ty => DNode.mk none ty ("[" ++ ty ++ "]")
            (nonSpatial.filter (fun e => e.type = ty)))
        .mk i t n ((spatialChildren ++ folders).mergeSort childSortLe)

/-- Pass 2 over a child list. -/
def groupList : List DNode → List DNode
  | [] => []
  | c :: rest => groupElementTypes c :: groupList rest

end

/-- Embedding of `enrichNode`: run pass 1; no surviving node yields no tree;
one surviving node becomes the root; several are wrapped in the synthetic
Project node; pass 2 then groups the chosen root. -/
def enrichNode (cm : List (Int × String)) (nm : List (Int × String))
    (tm : List (Int × TypeCode)) (raw : RawNode) : Option DNode :=
  match flattenWrappers cm nm tm raw with
  | [] => none
  | [x] => some (groupElementTypes x)
  | x :: y :: rest =>
      some (groupElementTypes (.mk none "IfcProject" "Project" (x :: y :: rest)))

/-- Wrapper-elision condition exactly as claim C2 words it: the resolved
TypeName is the generic placeholder or carries the relationship-class lead-in
AND the node has at least one flattened child or lacks a valid non-zero
identifier; or it lacks a valid non-zero identifier and its TypeName is not a
spatial-container type. Stated from the specification for comparison with
the code. -/
def specWrapperElision (typeName : String) (flattenedChildCount : Nat)
    (hasValidId : Bool) : Bool :=
  ((decide (typeName = "IfcElement") || strStartsWith typeName "IfcRel") &&
    (decide (flattenedChildCount > 0) || !hasValidId)) ||
  (!hasValidId && !(SPATIAL_TYPES.contains typeName))

/-- Nested conditional of the code and flat disjunction of the claim agree. -/
theorem dummy_cond_eq_spec (g c v s : Bool) :
    (if g then c || !v else if !v && !s then true else false)
      = ((g && (c || !v)) || (!v && !s)) := by
  cases g <;> cases c <;> cases v <;> cases s <;> rfl

/-- Unfolding equation of pass 1 with the elision decision written as the
flat disjunction. -/
theorem flattenWrappers_eq_ite (cm nm : List (Int × String))
    (tm : List (Int × TypeCode)) (lid : Option Int) (cat : Option TypeCode)
    (children : List RawNode) :
    flattenWrappers cm nm tm (.mk lid cat children) =
      if specWrapperElision (resolveNodeType cm tm lid cat)
          (flattenList cm nm tm children).length (rawHasValidId lid)
      then flattenList cm nm tm children
      else [DNode.mk lid (resolveNodeType cm tm lid cat)
        (resolveNodeName nm lid (resolveNodeType cm tm lid cat))
        (flattenList cm nm tm children)] := by
  rw [flattenWrappers]
  simp only [specWrapperElision]
  rw [dummy_cond_eq_spec]

/-- Claim C2: pass 1 elides a raw node, splicing in its already-flattened
children, exactly when the claimed condition holds of its resolved TypeName,
its flattened children and its identifier validity; every non-elided node is
kept as exactly one display node carrying its flattened children. -/
theorem flattenWrappers_elision_rule (cm nm : List (Int × String))
    (tm : List (Int × TypeCode)) (lid : Option Int) (cat : Option TypeCode)
    (children : List RawNode) :
    flattenWrappers cm nm tm (.mk lid cat children) =
      if specWrapperElision (resolveNodeType cm tm lid cat)
          (flattenList cm nm tm children).length (rawHasValidId lid)
      then flattenList cm nm tm children
      else [DNode.mk lid (resolveNodeType cm tm lid cat)
        (resolveNodeName nm lid (resolveNodeType cm tm lid cat))
        (flattenList cm nm tm children)] :=
  flattenWrappers_eq_ite cm nm tm lid cat children

mutual

/-- Multiset of the identifiers carried by the nodes of a display subtree. -/
def idsOf : DNode → Multiset Int
  | .mk i _ _ children =>
      (match i with
       | some k => {k}
       | none => 0) + idsList children

/-- Identifier multiset of a forest. -/
def idsList : List DNode → Multiset Int
  | [] => 0
  | c :: rest => idsOf c + idsList rest

end

mutual

/-- All nodes of a display subtree, the root included. -/
def allNodes : DNode → List DNode
  | .mk i t n children => .mk i t n children :: allList children

/-- All nodes of a forest. -/
def allList : List DNode → List DNode
  | [] => []
  | c :: rest => allNodes c ++ allList rest

end

theorem mem_firstDedup (l : List String) : ∀ a, a ∈ firstDedup l ↔ a ∈ l := by
  induction l using firstDedup.induct with
  | case1 => simp [firstDedup]
  | case2 x xs ih =>
      intro a
      rw [firstDedup]
      by_cases ha : a = x
      · simp [ha]
      · simp only [List.mem_cons, ih a, List.mem_filter]
        constructor
        · rintro (h | ⟨h, _⟩)
          · exact Or.inl h
          · exact Or.inr h
        · rintro (h | h)
          · exact Or.inl h
          · exact Or.inr ⟨h, by simpa using ha⟩

theorem nodup_firstDedup (l : List String) : (firstDedup l).Nodup := by
  induction l using firstDedup.induct with
  | case1 => simp [firstDedup]
  | case2 x xs ih =>
      rw [firstDedup]
      refine List.nodup_cons.mpr ⟨?_, ih⟩
      intro hmem
      have := (mem_firstDedup _ x).mp hmem
      simp at this

theorem idsList_eq_map_sum (l : List DNode) : idsList l = (l.map idsOf).sum := by
  induction l with
  | nil => rfl
  | cons c rest ih => simp [idsList, ih]

theorem idsList_append (l r : List DNode) :
    idsList (l ++ r) = idsList l + idsList r := by
  simp [idsList_eq_map_sum]

theorem idsList_perm {l l' : List DNode} (h : l.Perm l') : idsList l = idsList l' := by
  rw [idsList_eq_map_sum, idsList_eq_map_sum]
  exact (h.map idsOf).sum_eq

theorem idsList_filter_partition (p : DNode → Bool) (l : List DNode) :
    idsList (l.filter p) + idsList (l.filter fun x => !p x) = idsList l := by
  induction l with
  | nil => rfl
  | cons c rest ih =>
      cases hc : p c <;>
        simp [List.filter_cons, hc, idsList, add_assoc, add_left_comm, ih]

theorem idsList_keyFolders (keys : List String) (l : List DNode) :
    idsList (keys.map fun ty => DNode.mk none ty ("[" ++ ty ++ "]")
        (l.filter fun e => e.type = ty))
      = (keys.map fun ty => idsList (l.filter fun e => e.type = ty)).sum := by
  induction keys with
  | nil => rfl
  | cons k ks ih => simp [idsList, idsOf, ih]

theorem idsList_sum_filter_keys (keys : List String) (l : List DNode)
    (hnd : keys.Nodup) (hcov : ∀ e ∈ l, e.type ∈ keys) :
    (keys.map fun ty => idsList (l.filter fun e => e.type = ty)).sum = idsList l := by
  induction keys generalizing l with
  | nil =>
      cases l with
      | nil => rfl
      | cons c rest => exact absurd (hcov c (List.mem_cons_self c rest)) (by simp)
  | cons k ks ih =>
      have hmap : ∀ ty ∈ ks,
          idsList (l.filter fun e => e.type = ty)
            = idsList ((l.filter fun e => !(decide (e.type = k))).filter
                fun e => e.type = ty) := by
        intro ty hty
        congr 1
        rw [List.filter_filter]
        apply List.filter_congr
        intro e _
        by_cases he : e.type = ty
        · have htk : ¬ ty = k := by
            intro hk
            exact (List.nodup_cons.mp hnd).1 (hk ▸ hty)
          simp [he, htk]
        · simp [he]
      have hcov2 : ∀ e ∈ l.filter fun e => !(decide (e.type = k)), e.type ∈ ks := by
        intro e he
        obtain ⟨hel, hne⟩ := List.mem_filter.mp he
        have := hcov e hel
        simp only [List.mem_cons] at this
        rcases this with h | h
        · simp [h] at hne
        · exact h
      calc (((k :: ks).map fun ty => idsList (l.filter fun e => e.type = ty)).sum)
          = idsList (l.filter fun e => e.type = k) +
              (ks.map fun ty => idsList (l.filter fun e => e.type = ty)).sum := by
            simp
        _ = idsList (l.filter fun e => e.type = k) +
              (ks.map fun ty => idsList ((l.filter fun e => !(decide (e.type = k))).filter
                fun e => e.type = ty)).sum := by
            rw [List.map_congr_left hmap]
        _ = idsList (l.filter fun e => e.type = k) +
              idsList (l.filter fun e => !(decide (e.type = k))) := by
            rw [ih _ (List.nodup_cons.mp hnd).2 hcov2]
        _ = idsList l := by
            have := idsList_filter_partition (fun e => decide (e.type = k)) l
            simpa using this

/-- Pass 2 leaves the root fields of a node unchanged. -/
theorem groupElementTypes_root (i : Option Int) (t n : String) (cs : List DNode) :
    ∃ cs', groupElementTypes (.mk i t n cs) = .mk i t n cs' := by
  rw [groupElementTypes]
  split <;> exact ⟨_, rfl⟩

/-- Regrouped, folder-bundled and sorted children of one level carry the same
identifier multiset as the level they came from. -/
theorem idsList_group_children (grouped spatial folders ns : List DNode)
    (hs : spatial = grouped.filter (fun c => SPATIAL_TYPES.contains c.type))
    (hn : ns = grouped.filter (fun c => !(SPATIAL_TYPES.contains c.type)))
    (hf : folders = (firstDedup (ns.map DNode.type)).map
        (fun ty => DNode.mk none ty ("[" ++ ty ++ "]")
          (ns.filter (fun e => e.type = ty)))) :
    idsList ((spatial ++ folders).mergeSort childSortLe) = idsList grouped := by
  subst hs hn hf
  rw [idsList_perm (List.mergeSort_perm _ childSortLe)]
  rw [idsList_append, idsList_keyFolders]
  rw [idsList_sum_filter_keys _ _ (nodup_firstDedup _)
    (fun e he => (mem_firstDedup _ _).mpr (List.mem_map_of_mem DNode.type he))]
  exact idsList_filter_partition _ grouped

/-- Pass 2 preserves the identifier multiset of a subtree and of a forest. -/
theorem idsOf_groupElementTypes :
    (∀ d, idsOf (groupElementTypes d) = idsOf d) ∧
    (∀ l, idsList (groupList l) = idsList l) := by
  refine groupElementTypes.mutual_induct
    (fun d => idsOf (groupElementTypes d) = idsOf d)
    (fun l => idsList (groupList l) = idsList l) ?_ ?_ ?_ ?_
  · intro i t n children hempty
    rw [groupElementTypes]
    simp [hempty]
  · intro i t n children hempty ih
    rw [groupElementTypes]
    rw [if_neg hempty]
    simp only [idsOf]
    congr 1
    exact (idsList_group_children (groupList children) _ _ _ rfl rfl rfl).trans ih
  · rfl
  · intro c rest ih1 ih2
    simp [groupList, idsList, ih1, ih2]

/-- Claim C3: the synthesis step of the tree builder. No surviving pass-1
node yields no tree; exactly one surviving node becomes the root of the
grouped tree, keeping its identifier, type and display name and wrapping the
same element identifiers; several surviving nodes are wrapped in a synthetic
Project container with a null identifier wrapping exactly the identifiers of
all of them. -/
theorem enrichNode_synthesis (cm nm : List (Int × String)) (tm : List (Int × TypeCode))
    (raw : RawNode) :
    (enrichNode cm nm tm raw = none ↔ flattenWrappers cm nm tm raw = []) ∧
    (∀ x, flattenWrappers cm nm tm raw = [x] →
      ∃ r, enrichNode cm nm tm raw = some r ∧ r.expressID = x.expressID ∧
        r.type = x.type ∧ r.name = x.name ∧ idsOf r = idsOf x) ∧
    (∀ x y rest, flattenWrappers cm nm tm raw = x :: y :: rest →
      ∃ r, enrichNode cm nm tm raw = some r ∧ r.expressID = none ∧
        r.type = "IfcProject" ∧ r.name = "Project" ∧
        idsOf r = idsList (x :: y :: rest)) := by
  refine ⟨?_, ?_, ?_⟩
  · unfold enrichNode
    cases h : flattenWrappers cm nm tm raw with
    | nil => simp
    | cons x xs => cases xs <;> simp
  · intro x hx
    obtain ⟨xi, xt, xn, xcs⟩ := x
    obtain ⟨cs', hroot⟩ := groupElementTypes_root xi xt xn xcs
    refine ⟨groupElementTypes (.mk xi xt xn xcs), ?_, ?_, ?_, ?_,
      idsOf_groupElementTypes.1 _⟩
    · unfold enrichNode
      rw [hx]
    · rw [hroot]; rfl
    · rw [hroot]; rfl
    · rw [hroot]; rfl
  · intro x y rest hx
    obtain ⟨cs', hroot⟩ := groupElementTypes_root none "IfcProject" "Project" (x :: y :: rest)
    refine ⟨groupElementTypes (.mk none "IfcProject" "Project" (x :: y :: rest)),
      ?_, ?_, ?_, ?_, ?_⟩
    · unfold enrichNode
      rw [hx]
    · rw [hroot]; rfl
    · rw [hroot]; rfl
    · rw [hroot]; rfl
    · rw [idsOf_groupElementTypes.1 _]
      simp [idsOf]

/-- Witness for C3: an all-wrapper tree yields no tree; a single kept node
becomes the root; two kept nodes are wrapped in the synthetic Project node. -/
theorem enrichNode_synthesis_witness :
    enrichNode [] [] [] (.mk none none []) = none ∧
    (∃ r, enrichNode [] [] [] (.mk (some 10) none []) = some r ∧
      r.expressID = some 10 ∧ r.type = "IfcElement" ∧ r.name = "IfcElement" ∧
      idsOf r = idsOf (.mk (some 10) "IfcElement" "IfcElement" [])) ∧
    (∃ r, enrichNode [] [] []
        (.mk none none [.mk (some 1) none [], .mk (some 2) none []]) = some r ∧
      r.expressID = none ∧ r.type = "IfcProject" ∧ r.name = "Project" ∧
      idsOf r = idsList [.mk (some 1) "IfcElement" "IfcElement" [],
        .mk (some 2) "IfcElement" "IfcElement" []]) := by
  have h0 : flattenWrappers [] [] [] (.mk none none []) = [] := by
    rw [flattenWrappers]
    simp [resolveNodeType, resolveNodeName, rawHasValidId, flattenList]
  have h1 : flattenWrappers [] [] [] (.mk (some 10) none [])
      = [.mk (some 10) "IfcElement" "IfcElement" []] := by
    rw [flattenWrappers]
    simp [resolveNodeType, resolveNodeName, rawHasValidId, flattenList, mapGet]
  have h2 : flattenWrappers [] [] []
      (.mk none none [.mk (some 1) none [], .mk (some 2) none []])
      = [.mk (some 1) "IfcElement" "IfcElement" [],
         .mk (some 2) "IfcElement" "IfcElement" []] := by
    rw [flattenWrappers]
    simp [resolveNodeType, resolveNodeName, rawHasValidId, flattenList,
      flattenWrappers, mapGet]
  exact ⟨(enrichNode_synthesis [] [] [] _).1.mpr h0,
    (enrichNode_synthesis [] [] [] _).2.1 _ h1,
    (enrichNode_synthesis [] [] [] _).2.2 _ _ _ h2⟩

theorem mem_allList_iff (x : DNode) (l : List DNode) :
    x ∈ allList l ↔ ∃ d ∈ l, x ∈ allNodes d := by
  induction l with
  | nil => simp [allList]
  | cons c rest ih => simp [allList, ih]

theorem self_mem_allNodes (d : DNode) : d ∈ allNodes d := by
  obtain ⟨i, t, n, cs⟩ := d
  rw [allNodes]
  exact List.mem_cons_self _ _

theorem allNodes_cons_children (i : Option Int) (t n : String) (cs : List DNode) :
    allNodes (.mk i t n cs) = .mk i t n cs :: allList cs := by
  rw [allNodes]

theorem groupList_eq_map (l : List DNode) : groupList l = l.map groupElementTypes := by
  induction l with
  | nil => rfl
  | cons c rest ih => rw [groupList, ih, List.map_cons]

theorem mem_flattenList_iff (cm nm : List (Int × String)) (tm : List (Int × TypeCode))
    (d : DNode) (rl : List RawNode) :
    d ∈ flattenList cm nm tm rl ↔ ∃ c ∈ rl, d ∈ flattenWrappers cm nm tm c := by
  induction rl with
  | nil => simp [flattenList]
  | cons c rest ih => simp [flattenList, ih]

theorem contains_spatial_iff (t : String) :
    SPATIAL_TYPES.contains t = true ↔ t ∈ SPATIAL_TYPES := by
  simp

/-- A spatial-container type name never carries the folder bracket. -/
theorem spatial_no_bracket : ∀ t ∈ SPATIAL_TYPES, strStartsWith t "[" = false := by
  decide

/-- Valid display identifier: present and non-zero. -/
def validNodeId (d : DNode) : Bool :=
  match d.expressID with
  | some k => decide (k ≠ 0)
  | none => false

/-- Synthetic type folder, as claim C10 identifies one: a node with a null
identifier and a bracketed display name. -/
def isTypeFolderNode (d : DNode) : Bool :=
  d.expressID.isNone && strStartsWith d.name "["

/-- Invariant of pass-1 output nodes: a node without an identifier is a
spatial container displayed under its own type name, which never carries the
folder bracket; a node with the zero identifier is a spatial container. -/
def passOneInv (d : DNode) : Prop :=
  (d.expressID = none → d.type ∈ SPATIAL_TYPES ∧ strStartsWith d.name "[" = false) ∧
  (d.expressID = some 0 → d.type ∈ SPATIAL_TYPES)

/-- Invariant claimed of the final display tree: every node carrying an
identifier either carries a valid non-zero identifier or is of a
spatial-container type; and every child of a synthetic type folder carries a
valid non-zero identifier and the type of the folder. -/
def displayInv (d : DNode) : Prop :=
  (d.expressID ≠ none → (validNodeId d = true ∨ d.type ∈ SPATIAL_TYPES)) ∧
  (isTypeFolderNode d = true →
    ∀ c ∈ d.children, validNodeId c = true ∧ c.type = d.type)

/-- Boolean shape of the elision decision for a node lacking a valid
identifier: survival forces a non-generic, non-relationship, spatial type. -/
theorem dummy_false_invalid (g c s : Bool)
    (h : (if g then c || !false else if !false && !s then true else false) = false) :
    g = false ∧ s = true := by
  cases g <;> cases c <;> cases s <;> simp_all

theorem elide_false_invalid (g c s v : Bool) (hv : v = false)
    (h : ((g && (c || !v)) || (!v && !s)) = false) : g = false ∧ s = true := by
  subst hv
  cases g <;> cases c <;> cases s <;> simp_all

/-- Every node in every subtree emitted by pass 1 satisfies the pass-1
invariant: survival without a valid identifier forces a spatial type
displayed under its own unbracketed type name. -/
theorem flattenWrappers_passOneInv (cm nm : List (Int × String))
    (tm : List (Int × TypeCode)) :
    ∀ (raw : RawNode) (d : DNode), d ∈ flattenWrappers cm nm tm raw →
      ∀ x ∈ allNodes d, passOneInv x := by
  suffices H : ∀ (N : Nat) (raw : RawNode), sizeOf raw ≤ N →
      ∀ d ∈ flattenWrappers cm nm tm raw, ∀ x ∈ allNodes d, passOneInv x by
    exact fun raw => H (sizeOf raw) raw le_rfl
  intro N
  induction N with
  | zero =>
      intro raw hle
      obtain ⟨lid, cat, children⟩ := raw
      simp at hle
  | succ N ih =>
      intro raw hle d hd x hx
      obtain ⟨lid, cat, children⟩ := raw
      have hchild : ∀ c ∈ children, sizeOf c ≤ N := by
        intro c hc
        have h1 := List.sizeOf_lt_of_mem hc
        have h2 : 1 + sizeOf lid + sizeOf cat + sizeOf children
            = sizeOf (RawNode.mk lid cat children) := by simp
        omega
      rw [flattenWrappers_eq_ite cm nm tm lid cat children] at hd
      split at hd
      · obtain ⟨c, hc, hdc⟩ := (mem_flattenList_iff cm nm tm d children).mp hd
        exact ih c (hchild c hc) d hdc x hx
      · rename_i hcond
        rw [Bool.not_eq_true] at hcond
        simp only [specWrapperElision] at hcond
        have hdx := List.mem_singleton.mp hd
        subst hdx
        rw [allNodes_cons_children] at hx
        rcases List.mem_cons.mp hx with rfl | hx2
        · constructor
          · intro hnone
            simp only [DNode.expressID] at hnone
            subst hnone
            obtain ⟨hG, hS⟩ := elide_false_invalid _ _ _ _ rfl hcond
            refine ⟨?_, ?_⟩
            · simp only [DNode.type]
              exact (contains_spatial_iff _).mp (by simpa using hS)
            · simp only [DNode.name, resolveNodeName, Option.bind]
              exact spatial_no_bracket _ ((contains_spatial_iff _).mp (by simpa using hS))
          · intro h0
            simp only [DNode.expressID] at h0
            subst h0
            obtain ⟨hG, hS⟩ := elide_false_invalid _ _ _ _
              (by simp [rawHasValidId]) hcond
            simp only [DNode.type]
            exact (contains_spatial_iff _).mp (by simpa using hS)
        · obtain ⟨d2, hd2, hxd2⟩ := (mem_allList_iff x _).mp hx2
          obtain ⟨c, hc, hdc⟩ := (mem_flattenList_iff cm nm tm d2 children).mp hd2
          exact ih c (hchild c hc) d2 hdc x hxd2

theorem displayInv_part1 (d : DNode) (hp : passOneInv d) :
    d.expressID ≠ none → (validNodeId d = true ∨ d.type ∈ SPATIAL_TYPES) := by
  intro hne
  cases hi : d.expressID with
  | none => exact absurd hi hne
  | some k =>
      by_cases hk : k = 0
      · subst hk
        exact Or.inr (hp.2 hi)
      · left
        simp [validNodeId, hi, hk]

theorem not_folder_of_passOneInv (d : DNode) (hp : passOneInv d) :
    isTypeFolderNode d = false := by
  cases hi : d.expressID with
  | some k => simp [isTypeFolderNode, hi]
  | none => simp [isTypeFolderNode, hi, (hp.1 hi).2]

/-- A node of the pass-1 output is never a folder, so the display invariant
reduces to its identifier clause, which the pass-1 invariant implies. -/
theorem displayInv_of_passOneInv (d : DNode) (hp : passOneInv d) : displayInv d := by
  refine ⟨displayInv_part1 d hp, ?_⟩
  intro hf
  rw [not_folder_of_passOneInv d hp] at hf
  cases hf

/-- Pass 2 establishes the claimed display invariant on every node of its
output whenever its input satisfies the pass-1 invariant everywhere. -/
theorem groupElementTypes_displayInv :
    (∀ d, (∀ n ∈ allNodes d, passOneInv n) →
      ∀ n ∈ allNodes (groupElementTypes d), displayInv n) ∧
    (∀ l, (∀ n ∈ allList l, passOneInv n) →
      ∀ n ∈ allList (groupList l), displayInv n) := by
  refine groupElementTypes.mutual_induct
    (fun d => (∀ n ∈ allNodes d, passOneInv n) →
      ∀ n ∈ allNodes (groupElementTypes d), displayInv n)
    (fun l => (∀ n ∈ allList l, passOneInv n) →
      ∀ n ∈ allList (groupList l), displayInv n)
    ?_ ?_ ?_ ?_
  · intro i t n children hempty hall x hx
    rw [groupElementTypes, if_pos hempty] at hx
    exact displayInv_of_passOneInv x (hall x hx)
  · intro i t n children hempty ih hall x hx
    have hallc : ∀ m ∈ allList children, passOneInv m := by
      intro m hm
      exact hall m (by rw [allNodes_cons_children]; exact List.mem_cons_of_mem _ hm)
    simp only [groupElementTypes] at hx
    rw [if_neg hempty] at hx
    rw [allNodes_cons_children] at hx
    rcases List.mem_cons.mp hx with rfl | hx2
    · have hp : passOneInv (DNode.mk i t n children) := hall _ (self_mem_allNodes _)
      exact displayInv_of_passOneInv _ hp
    · obtain ⟨m, hm, hxm⟩ := (mem_allList_iff x _).mp hx2
      have hm2 := ((List.mergeSort_perm _ childSortLe).mem_iff).mp hm
      rcases List.mem_append.mp hm2 with hsp | hfo
      · have hmg : m ∈ groupList children := List.mem_of_mem_filter hsp
        exact ih hallc x ((mem_allList_iff x _).mpr ⟨m, hmg, hxm⟩)
      · obtain ⟨ty, hty, hmdef⟩ := List.mem_map.mp hfo
        subst hmdef
        rw [allNodes_cons_children] at hxm
        rcases List.mem_cons.mp hxm with rfl | hxm2
        · constructor
          · intro hne
            simp [DNode.expressID] at hne
          · intro _ c hc
            simp only [DNode.children] at hc
            have hcty : c.type = ty := by simpa using (List.mem_filter.mp hc).2
            have hcn := (List.mem_filter.mp hc).1
            have hcns : ¬ (SPATIAL_TYPES.contains c.type = true) := by
              have := (List.mem_filter.mp hcn).2
              simpa using this
            have hcg : c ∈ groupList children := (List.mem_filter.mp hcn).1
            rw [groupList_eq_map] at hcg
            obtain ⟨c0, hc0, hcdef⟩ := List.mem_map.mp hcg
            obtain ⟨i0, t0, n0, cs0⟩ := c0
            obtain ⟨cs0g, hro⟩ := groupElementTypes_root i0 t0 n0 cs0
            have hp0 : passOneInv (.mk i0 t0 n0 cs0) :=
              hallc _ ((mem_allList_iff _ _).mpr ⟨_, hc0, self_mem_allNodes _⟩)
            have hct0 : c.type = t0 := by rw [← hcdef, hro]; rfl
            have hce : c.expressID = i0 := by rw [← hcdef, hro]; rfl
            refine ⟨?_, hcty⟩
            cases hi0 : i0 with
            | none =>
                exfalso
                apply hcns
                rw [contains_spatial_iff, hct0]
                exact (hp0.1 (by simp [DNode.expressID, hi0])).1
            | some k =>
                by_cases hk : k = 0
                · exfalso
                  apply hcns
                  rw [contains_spatial_iff, hct0]
                  exact hp0.2 (by simp [DNode.expressID, hi0, hk])
                · simp [validNodeId, hce, hi0, hk]
        · obtain ⟨c, hc, hxc⟩ := (mem_allList_iff x _).mp hxm2
          have hcg : c ∈ groupList children :=
            List.mem_of_mem_filter (List.mem_of_mem_filter hc)
          exact ih hallc x ((mem_allList_iff x _).mpr ⟨c, hcg, hxc⟩)
  · intro hall x hx
    simp [groupList, allList] at hx
  · intro c rest ih1 ih2 hall x hx
    rw [groupList] at hx
    rw [allList] at hx
    have hallc : ∀ m ∈ allNodes c, passOneInv m := by
      intro m hm
      exact hall m (by rw [allList]; exact List.mem_append_left _ hm)
    have hallr : ∀ m ∈ allList rest, passOneInv m := by
      intro m hm
      exact hall m (by rw [allList]; exact List.mem_append_right _ hm)
    rcases List.mem_append.mp hx with h | h
    · exact ih1 hallc x h
    · exact ih2 hallr x h

/-- Claim C10: in every display tree produced by the tree builder, every node
carrying an identifier either carries a valid non-zero identifier or is of a
spatial-container type; and every child of a synthetic type folder (a node
with a null identifier and a bracketed display name) carries a valid non-zero
identifier and the same TypeName as the folder. -/
theorem enrichNode_display_invariants (cm nm : List (Int × String))
    (tm : List (Int × TypeCode)) (raw : RawNode) (r : DNode)
    (h : enrichNode cm nm tm raw = some r) :
    ∀ x ∈ allNodes r, displayInv x := by
  unfold enrichNode at h
  cases hf : flattenWrappers cm nm tm raw with
  | nil =>
      rw [hf] at h
      cases h
  | cons a xs =>
      rw [hf] at h
      cases xs with
      | nil =>
          have hr : r = groupElementTypes a := by
            injection h with h2
            exact h2.symm
          subst hr
          apply groupElementTypes_displayInv.1
          intro m hm
          exact flattenWrappers_passOneInv cm nm tm raw a
            (by rw [hf]; exact List.mem_singleton.mpr rfl) m hm
      | cons b rest =>
          have hr : r = groupElementTypes (.mk none "IfcProject" "Project" (a :: b :: rest)) := by
            injection h with h2
            exact h2.symm
          subst hr
          apply groupElementTypes_displayInv.1
          intro m hm
          rw [allNodes_cons_children] at hm
          rcases List.mem_cons.mp hm with rfl | hm2
          · refine ⟨fun _ => ⟨?_, ?_⟩, fun h0 => ?_⟩
            · show "IfcProject" ∈ SPATIAL_TYPES
              decide
            · show strStartsWith "Project" "[" = false
              decide
            · simp [DNode.expressID] at h0
          · obtain ⟨d2, hd2, hmd⟩ := (mem_allList_iff m _).mp hm2
            have hd3 : d2 ∈ flattenWrappers cm nm tm raw := by
              rw [hf]
              exact hd2
            exact flattenWrappers_passOneInv cm nm tm raw d2 hd3 m hmd

/-- Witness for C10: a concrete model whose tree is a single kept element
node; every node of the resulting display tree satisfies the invariant. -/
theorem enrichNode_display_invariants_witness :
    enrichNode [] [] [] (.mk (some 10) none [])
      = some (.mk (some 10) "IfcElement" "IfcElement" []) ∧
    ∀ x ∈ allNodes (DNode.mk (some 10) "IfcElement" "IfcElement" []), displayInv x := by
  have h1 : flattenWrappers [] [] [] (.mk (some 10) none [])
      = [.mk (some 10) "IfcElement" "IfcElement" []] := by
    rw [flattenWrappers]
    simp [resolveNodeType, resolveNodeName, rawHasValidId, flattenList, mapGet]
  have henrich : enrichNode [] [] [] (.mk (some 10) none [])
      = some (.mk (some 10) "IfcElement" "IfcElement" []) := by
    unfold enrichNode
    rw [h1]
    show some (groupElementTypes (.mk (some 10) "IfcElement" "IfcElement" [])) = _
    rw [groupElementTypes]
    simp
  exact ⟨henrich, enrichNode_display_invariants [] [] [] _ _ henrich⟩
